import Mathlib

/-
Verification of the lsapp Desktop-Entry parser core.

Shallow embedding of `src/parser/span.rs`, `src/parser/tokens.rs` and the
(spec-modelled, see below) tree-builder entry points of `src/parser/mod.rs`.
Machine integers (`u32`) are modelled as `Nat`: the scanner only ever adds or
subtracts one, and subtraction is always preceded by the matching addition, so
no wrap-around behaviour is observable in the modelled operations.
Rust `char::is_alphabetic` is modelled by `Char.isAlpha`; every character the
claims mention is ASCII, where the two agree.
Rust panics and `Option`/`Result`-like failures are modelled with `Option` /
`Except`: `none` (resp. `.error`) marks the panic (resp. recoverable error).
-/

namespace Lsapp

/-- Embeds `State` from `src/parser/mod.rs`: the lexer's scan state. -/
inductive State where
  | ReadHeader
  | ReadKey
  | ReadValue
  | ReadExec
deriving DecidableEq, Repr

/-- Embeds `Position` from `src/parser/span.rs`: row, column and byte index
(field `idx` in the source). -/
structure Position where
  row : Nat
  col : Nat
  idx : Nat
deriving DecidableEq, Repr

/-- Embeds `Position::new`. -/
def Position.new : Position := ⟨0, 0, 0⟩

/-- Embeds `Add<u32> for Position`: advances `col` and `idx`, leaves `row` unchanged. -/
def Position.add (p : Position) (n : Nat) : Position :=
  ⟨p.row, p.col + n, p.idx + n⟩

/-- Embeds `Sub<u32> for Position`: decrements `col` and `idx`, leaves `row` unchanged. -/
def Position.sub (p : Position) (n : Nat) : Position :=
  ⟨p.row, p.col - n, p.idx - n⟩

/-- Embeds `Position::newline`: next row, column reset to 0, byte index unchanged. -/
def Position.newline (p : Position) : Position :=
  ⟨p.row + 1, 0, p.idx⟩

/-- The manual `impl Ord for Position`: row first, then column; `idx` is ignored. -/
def Position.ordCmp (p q : Position) : Ordering :=
  match compare p.row q.row with
  | Ordering.eq => compare p.col q.col
  | c => c

/-- The derived `PartialOrd for Position`: lexicographic on (row, col, idx).
This is the comparison the `>` operator in the span checks resolves to. -/
def Position.lexCmp (p q : Position) : Ordering :=
  match compare p.row q.row with
  | Ordering.eq =>
    match compare p.col q.col with
    | Ordering.eq => compare p.idx q.idx
    | c => c
  | c => c

/-- Embeds `Span` from `src/parser/span.rs`. -/
structure Span where
  start : Position
  «end» : Position
deriving DecidableEq, Repr

/-- A span is well-ordered when `start <= end` under the derived ordering the
source's checks use. -/
def Span.wellOrdered (s : Span) : Prop := s.start.lexCmp s.«end» ≠ Ordering.gt

instance (s : Span) : Decidable s.wellOrdered := by
  unfold Span.wellOrdered
  infer_instance

/-- Embeds `Span::new`: constructs the span exactly as given.  The source performs no
validity check here. -/
def Span.new (start «end» : Position) : Span := ⟨start, «end»⟩

/-- Embeds `Span::start`: a zero-width span at `start`. -/
def Span.startAt (start : Position) : Span := ⟨start, start⟩

/-- Embeds `Span::finish`: sets the end bound; panics (here `none`) when
`start > end`. -/
def Span.finish (s : Span) («end» : Position) : Option Span :=
  if s.start.lexCmp «end» = Ordering.gt then none
  else some ⟨s.start, «end»⟩

/-- Embeds `Add<u32> for Span`: extends the end bound, no check. -/
def Span.add (s : Span) (n : Nat) : Span :=
  ⟨s.start, s.«end».add n⟩

/-- Embeds `Sub<u32> for Span`: shrinks the end bound; panics (here `none`) when the
result would be inverted. -/
def Span.sub (s : Span) (n : Nat) : Option Span :=
  if s.start.lexCmp (s.«end».sub n) = Ordering.gt then none
  else some ⟨s.start, s.«end».sub n⟩

/-- An update on a span: the operations the spec's invariant quantifies over
(`+n`, `-n`, `finish`). -/
inductive SpanOp where
  | add (n : Nat)
  | sub (n : Nat)
  | finish (e : Position)
deriving DecidableEq, Repr

/-- Apply one span operation; `none` is the fatal-assertion (panic) outcome. -/
def Span.applyOp (s : Span) : SpanOp → Option Span
  | SpanOp.add n => some (s.add n)
  | SpanOp.sub n => s.sub n
  | SpanOp.finish e => s.finish e

/-- Apply a sequence of span operations, stopping at the first panic. -/
def Span.applyOps (s : Span) (ops : List SpanOp) : Option Span :=
  ops.foldlM Span.applyOp s

/-- Embeds `TokenKind` from `src/parser/tokens.rs`. -/
inductive TokenKind where
  | Text (s : String)
  | LeftBracket
  | RightBracket
  | Equal
  | Semicolon
  | Argument (c : Char)
deriving DecidableEq, Repr

/-- Embeds `Token` from `src/parser/tokens.rs`. -/
structure Token where
  kind : TokenKind
  span : Span
deriving DecidableEq, Repr

/-- Embeds `Token::new`: span from `pos` to `pos + 1`. -/
def Token.new (kind : TokenKind) (pos : Position) : Token :=
  ⟨kind, Span.new pos (pos.add 1)⟩

/-- Embeds `Token::new_with_span`. -/
def Token.newWithSpan (kind : TokenKind) (span : Span) : Token :=
  ⟨kind, span⟩

/-- Embeds `TokenData` from `src/parser/tokens.rs`: the character cursor. `data` is
the remaining character stream, `back_data` the pushback stack with its most
recent element in front (the source pushes/pops at the end of a `Vec`). -/
structure TokenData where
  data : List Char
  pos : Position
  back_data : List Char
deriving DecidableEq, Repr

/-- Embeds `TokenData::new`. -/
def TokenData.new (s : String) : TokenData :=
  ⟨s.data, Position.new, []⟩

/-- Embeds `TokenData::next`: pop from the pushback stack first, else take from the
stream; the position advances by one exactly when a character was returned. -/
def TokenData.next (d : TokenData) : Option Char × TokenData :=
  match d.back_data with
  | c :: rest => (some c, { d with back_data := rest, pos := d.pos.add 1 })
  | [] =>
    match d.data with
    | c :: rest => (some c, { d with data := rest, pos := d.pos.add 1 })
    | [] => (none, d)

/-- Embeds `TokenData::peek`: top of the pushback stack, else head of the stream;
consumes nothing. -/
def TokenData.peek (d : TokenData) : Option Char :=
  match d.back_data with
  | c :: _ => some c
  | [] => d.data.head?

/-- Embeds `TokenData::push`: undo one consumed character, decrementing the position
exactly as `next` incremented it. -/
def TokenData.push (d : TokenData) (c : Char) : TokenData :=
  { d with pos := d.pos.sub 1, back_data := c :: d.back_data }

/-- Embeds `Tokens` from `src/parser/tokens.rs`: cursor, scan state and the text
buffer (which persists across tokens; `read_text` clears it on entry). -/
structure Tokens where
  data : TokenData
  state : State
  buf : String
deriving DecidableEq, Repr

/-- Embeds `Tokens::new`: fresh cursor, initial state `ReadKey`, empty buffer. -/
def Tokens.new (s : String) : Tokens :=
  ⟨TokenData.new s, State.ReadKey, ""⟩

/-- Total number of characters still available to the cursor; used as fuel for
the scanning loops, each iteration of which consumes at least one character. -/
def Tokens.totalRem (t : Tokens) : Nat :=
  t.data.back_data.length + t.data.data.length

/-- Embeds `Tokens::skip_whitespace`: consume spaces and tabs, pushing back the first
other character. -/
def TokenData.skipWhitespace : Nat → TokenData → TokenData
  | 0, d => d
  | fuel + 1, d =>
    match d.next with
    | (some c, d') =>
      if c = ' ' ∨ c = '\t' then TokenData.skipWhitespace fuel d'
      else d'.push c
    | (none, d') => d'

/-- Embeds `Tokens::advance_line`: consume one line break (`\n`, `\r\n` or `\r`),
move the position to the next row and reset the state to `ReadKey`; a
non-break character is pushed back and nothing else happens. -/
def Tokens.advanceLine (t : Tokens) : Tokens :=
  match t.data.next with
  | (some c, d1) =>
    if c = '\n' then
      { t with data := { d1 with pos := d1.pos.newline }, state := State.ReadKey }
    else if c = '\r' then
      match d1.next with
      | (some c2, d2) =>
        if c2 = '\n' then
          { t with data := { d2 with pos := d2.pos.newline }, state := State.ReadKey }
        else
          { t with data := { d2.push c2 with pos := (d2.push c2).pos.newline },
                   state := State.ReadKey }
      | (none, d2) =>
        { t with data := { d2 with pos := d2.pos.newline }, state := State.ReadKey }
    else
      { t with data := d1.push c }
  | (none, d1) => { t with data := d1 }

/-- Embeds `Tokens::skip_comment`: consume through the end of the line, push the
terminator back and let `advance_line` handle it. -/
def Tokens.skipComment : Nat → Tokens → Tokens
  | 0, t => t
  | fuel + 1, t =>
    match t.data.next with
    | (some c, d1) =>
      if c = '\n' ∨ c = '\r' then Tokens.advanceLine { t with data := d1.push c }
      else Tokens.skipComment fuel { t with data := d1 }
    | (none, d1) => { t with data := d1 }

/-- The state-specific delimiters of `Tokens::read_text`'s scanning loop. -/
def breakCond (st : State) (c : Char) : Prop :=
  (c = '[' ∧ st = State.ReadKey) ∨
  (c = ']' ∧ st = State.ReadKey) ∨
  (c = ']' ∧ st = State.ReadHeader) ∨
  (c = '=' ∧ st = State.ReadKey) ∨
  (c = ';' ∧ st = State.ReadValue) ∨
  c = '\n' ∨ c = '\r' ∨ c = '#'

instance (st : State) (c : Char) : Decidable (breakCond st c) := by
  unfold breakCond
  infer_instance

/-- The loop of `Tokens::read_text`.  In `ReadExec`, a `%` is consumed and the
following character inspected (the source's `test_arg` pass): if it is
alphabetic the `%` is pushed back and the run ends, otherwise the `%` joins
the buffer literally and scanning continues with the following character. -/
def Tokens.readTextGo : Nat → Tokens → Tokens
  | 0, t => t
  | fuel + 1, t =>
    match t.data.peek with
    | none => t
    | some c =>
      if breakCond t.state c then t
      else if c = '%' ∧ t.state = State.ReadExec then
        let d1 := (t.data.next).2
        match d1.peek with
        | some c2 =>
          if c2.isAlpha then { t with data := d1.push '%' }
          else Tokens.readTextGo fuel { t with data := d1, buf := t.buf.push '%' }
        | none => { t with data := d1, buf := t.buf.push '%' }
      else
        Tokens.readTextGo fuel { t with data := (t.data.next).2, buf := t.buf.push c }

/-- Embeds `Tokens::read_text`: clear the buffer, then scan. -/
def Tokens.readText (t : Tokens) : Tokens :=
  Tokens.readTextGo (t.totalRem + 1) { t with buf := "" }

/-- The loop of `Tokens::next_token`.  The outer fuel bounds the number of
skip iterations (each consumes at least one character); `none` marks fuel
exhaustion and is never produced when the fuel exceeds `totalRem`. -/
def Tokens.nextTokenGo : Nat → Tokens → Option (Option Token × Tokens)
  | 0, _ => none
  | fuel + 1, t =>
    match t.data.peek with
    | none => some (none, t)
    | some c =>
      if (c = ' ' ∨ c = '\t') ∧ t.state ≠ State.ReadExec then
        Tokens.nextTokenGo fuel
          { t with data := TokenData.skipWhitespace (t.totalRem + 1) t.data }
      else if c = '#' then
        Tokens.nextTokenGo fuel (Tokens.skipComment (t.totalRem + 1) t)
      else if c = '\n' ∨ c = '\r' then
        Tokens.nextTokenGo fuel t.advanceLine
      else if c = '[' ∧ t.state = State.ReadKey then
        let t1 := { t with state := State.ReadHeader, data := (t.data.next).2 }
        some (some (Token.new TokenKind.LeftBracket t1.data.pos), t1)
      else if c = ']' ∧ t.state = State.ReadHeader then
        let t1 := { t with state := State.ReadKey, data := (t.data.next).2 }
        some (some (Token.new TokenKind.RightBracket t1.data.pos), t1)
      else if c = '=' ∧ t.state = State.ReadKey then
        let st := if t.buf = "Exec" then State.ReadExec else State.ReadValue
        let t1 := { t with state := st, data := (t.data.next).2 }
        some (some (Token.new TokenKind.Equal t1.data.pos), t1)
      else if c = ';' ∧ t.state = State.ReadValue then
        let t1 := { t with data := (t.data.next).2 }
        some (some (Token.new TokenKind.Semicolon t1.data.pos), t1)
      else if c = '%' ∧ t.state = State.ReadExec then
        let d1 := (t.data.next).2
        match d1.next with
        | (some a, d2) =>
          some (some (Token.new (TokenKind.Argument a) d2.pos), { t with data := d2 })
        | (none, d2) =>
          some (some (Token.new (TokenKind.Argument (Char.ofNat 0)) d2.pos),
                { t with data := d2 })
      else
        let start := t.data.pos
        let t1 := t.readText
        some (some (Token.newWithSpan (TokenKind.Text t1.buf) (Span.new start t1.data.pos)), t1)

/-- Embeds `Tokens::next_token` with the fuel the loop needs. -/
def Tokens.runNext (t : Tokens) : Option Token × Tokens :=
  match Tokens.nextTokenGo (t.totalRem + 1) t with
  | some r => r
  | none => (none, t)

/-- The n-th token of the lazy stream (`Iterator::next` called n+1 times,
observing the last result). -/
def Tokens.lexNth : Nat → Tokens → Option Token
  | 0, t => (t.runNext).1
  | n + 1, t => Tokens.lexNth n (t.runNext).2

/-- All tokens the stream yields, up to the given count. -/
def Tokens.lexAll : Nat → Tokens → List Token
  | 0, _ => []
  | fuel + 1, t =>
    match t.runNext with
    | (some tok, t') => tok :: Tokens.lexAll fuel t'
    | (none, _) => []

/-- Embeds `ValuePart` from `src/parser/tree.rs` (the spec calls it `ExecPart`). -/
inductive ValuePart where
  | Literal (s : String)
  | Parameter (c : Char)
deriving DecidableEq, Repr

/-- Embeds `ValueKind` from `src/parser/tree.rs`.  Note: the source enum has exactly
these two constructors — `Simple` and `Exec`; it has no list-valued
constructor. -/
inductive ValueKind where
  | Simple (s : String)
  | Exec (parts : List ValuePart)
deriving DecidableEq, Repr

/-- Modelled from the spec: the recoverable error taxonomy of §7.  The
repository declares `pub mod error;` in `src/parser/mod.rs` but the module's
source is absent, so the error kinds are taken from the spec's words. -/
inductive ParseError where
  | UnexpectedToken (expected found : String) (span : Span)
  | ExpectedHeader (span : Span)
  | MalformedHeader (span : Span)
  | UnterminatedEntry (span : Span)
deriving DecidableEq, Repr

/-- Modelled from the spec: a `Section` of the Document (§3).  The claims
settled here depend only on the heading-gate behaviour of `parse`, so the
section's entry run is kept as its raw token sequence. -/
structure Section where
  heading : String
  span : Span
  entries : List Token
deriving DecidableEq, Repr

/-- Split a token run at the first `LeftBracket`: the tokens before it (one
section's entry run) and the remainder starting at the bracket. -/
def takeEntryRun : List Token → List Token × List Token
  | [] => ([], [])
  | t :: rest =>
    if t.kind = TokenKind.LeftBracket then ([], t :: rest)
    else
      let (a, b) := takeEntryRun rest
      (t :: a, b)

/-- Modelled from the spec: `match_heading()` (§4.3) — `Parser::match_heading`
in `src/parser/mod.rs` has an empty body.  Consumes `LeftBracket, Text(name),
RightBracket` in sequence; any deviation yields `MalformedHeader` carrying the
span of the first unexpected token. -/
def matchHeading (lb : Token) (rest : List Token) :
    Except ParseError (String × Span × List Token) :=
  match rest with
  | t2 :: rest2 =>
    match t2.kind with
    | TokenKind.Text name =>
      match rest2 with
      | t3 :: rest3 =>
        if t3.kind = TokenKind.RightBracket then
          Except.ok (name, Span.new lb.span.start t3.span.«end», rest3)
        else Except.error (ParseError.MalformedHeader t3.span)
      | [] => Except.error (ParseError.MalformedHeader t2.span)
    | _ => Except.error (ParseError.MalformedHeader t2.span)
  | [] => Except.error (ParseError.MalformedHeader lb.span)

/-- Modelled from the spec: the loop of `parse()` (§4.3) — `Parser::parse` in
`src/parser/mod.rs` has an empty body.  Repeatedly matches a section heading
followed by that section's entry run until the tokens are exhausted; a
top-level token that is not a `LeftBracket` is the `ExpectedHeader` parse
error, never a panic (the function is total). -/
def parseGo : Nat → List Token → Except ParseError (List Section)
  | _, [] => Except.ok []
  | 0, _ :: _ => Except.ok []
  | fuel + 1, t :: rest =>
    if t.kind = TokenKind.LeftBracket then
      match matchHeading t rest with
      | Except.error e => Except.error e
      | Except.ok (name, sp, rest2) =>
        let (es, rest3) := takeEntryRun rest2
        match parseGo fuel rest3 with
        | Except.error e => Except.error e
        | Except.ok secs => Except.ok ({ heading := name, span := sp, entries := es } :: secs)
    else Except.error (ParseError.ExpectedHeader t.span)

/-- Modelled from the spec: `parse()` over a token sequence; a well-formed
document must open with a heading. -/
def Parser.parse (toks : List Token) : Except ParseError (List Section) :=
  parseGo (toks.length + 1) toks

/-- The manual `Ord` comparison, as a `≤`-style proposition: not greater. -/
def Position.ordLe (p q : Position) : Prop := p.ordCmp q ≠ Ordering.gt

instance (p q : Position) : Decidable (p.ordLe q) := by
  unfold Position.ordLe
  infer_instance

/- Theorems about the embedded code follow. -/

theorem pos_add_one_sub_one (p : Position) : (p.add 1).sub 1 = p := by
  cases p
  simp [Position.add, Position.sub]

theorem pos_add_add (p : Position) (m n : Nat) : (p.add m).add n = p.add (m + n) := by
  cases p
  simp [Position.add]
  omega

theorem next_pos_of_peek (d : TokenData) (c : Char) (h : d.peek = some c) :
    ((d.next).2).pos = d.pos.add 1 := by
  cases d with
  | mk dat p bd =>
    cases bd with
    | cons b rest => simp [TokenData.next]
    | nil =>
      cases dat with
      | cons a rest => simp [TokenData.next]
      | nil => simp [TokenData.peek] at h

theorem next_fst_of_peek (d : TokenData) (c : Char) (h : d.peek = some c) :
    (d.next).1 = some c := by
  cases d with
  | mk dat p bd =>
    cases bd with
    | cons b rest =>
      simp [TokenData.peek] at h
      simp [TokenData.next, h]
    | nil =>
      cases dat with
      | cons a rest =>
        simp [TokenData.peek] at h
        simp [TokenData.next, h]
      | nil => simp [TokenData.peek] at h

theorem ordLe_iff (p q : Position) :
    p.ordLe q ↔ (p.row < q.row ∨ (p.row = q.row ∧ p.col ≤ q.col)) := by
  unfold Position.ordLe Position.ordCmp
  rcases hr : compare p.row q.row <;> rcases hc : compare p.col q.col <;>
    simp_all [Nat.compare_eq_lt, Nat.compare_eq_eq, Nat.compare_eq_gt] <;> omega

theorem ordLe_refl (p : Position) : p.ordLe p := by
  rw [ordLe_iff]
  omega

theorem ordLe_trans {p q r : Position} (h1 : p.ordLe q) (h2 : q.ordLe r) :
    p.ordLe r := by
  rw [ordLe_iff] at h1 h2 ⊢
  omega

theorem ordLe_add (p : Position) (n : Nat) : p.ordLe (p.add n) := by
  rw [ordLe_iff]
  cases p
  simp [Position.add]

theorem ordLe_newline (p q : Position) (h : p.ordLe q) : p.ordLe q.newline := by
  rw [ordLe_iff] at h ⊢
  cases p
  cases q
  simp [Position.newline] at *
  omega

theorem lexCmp_gt_iff (p q : Position) :
    p.lexCmp q = Ordering.gt ↔
      (q.row < p.row ∨ (q.row = p.row ∧ (q.col < p.col ∨ (q.col = p.col ∧ q.idx < p.idx)))) := by
  unfold Position.lexCmp
  rcases hr : compare p.row q.row <;> rcases hc : compare p.col q.col <;>
    rcases hi : compare p.idx q.idx <;>
      simp_all [Nat.compare_eq_lt, Nat.compare_eq_eq, Nat.compare_eq_gt] <;> omega

theorem wellOrdered_iff (a b : Position) :
    Span.wellOrdered ⟨a, b⟩ ↔
      (a.row < b.row ∨ (a.row = b.row ∧ (a.col < b.col ∨ (a.col = b.col ∧ a.idx ≤ b.idx)))) := by
  unfold Span.wellOrdered
  simp only [ne_eq, lexCmp_gt_iff]
  omega

theorem wellOrdered_add (s : Span) (n : Nat) (h : s.wellOrdered) :
    (s.add n).wellOrdered := by
  cases s with
  | mk a b =>
    simp only [Span.add]
    rw [wellOrdered_iff] at h ⊢
    cases a
    cases b
    simp [Position.add] at *
    omega

theorem wellOrdered_applyOp (s : Span) (op : SpanOp) (s' : Span)
    (h : s.wellOrdered) (happ : s.applyOp op = some s') : s'.wellOrdered := by
  cases op with
  | add n =>
    simp only [Span.applyOp, Option.some.injEq] at happ
    subst happ
    exact wellOrdered_add s n h
  | sub n =>
    simp only [Span.applyOp, Span.sub] at happ
    split at happ
    · exact absurd happ (by simp)
    · rename_i hc
      simp only [Option.some.injEq] at happ
      subst happ
      exact hc
  | finish e =>
    simp only [Span.applyOp, Span.finish] at happ
    split at happ
    · exact absurd happ (by simp)
    · rename_i hc
      simp only [Option.some.injEq] at happ
      subst happ
      exact hc

theorem wellOrdered_applyOps : ∀ (ops : List SpanOp) (s s' : Span),
    s.wellOrdered → Span.applyOps s ops = some s' → s'.wellOrdered := by
  intro ops
  induction ops with
  | nil =>
    intro s s' h happ
    simp [Span.applyOps, List.foldlM] at happ
    subst happ
    exact h
  | cons op rest ih =>
    intro s s' h happ
    simp only [Span.applyOps, List.foldlM] at happ
    cases hop : s.applyOp op with
    | none =>
      rw [hop] at happ
      simp at happ
    | some s1 =>
      rw [hop] at happ
      exact ih s1 s' (wellOrdered_applyOp s op s1 h hop) happ

theorem next_none (d d' : TokenData) (h : d.next = (none, d')) : d' = d := by
  cases d with
  | mk dat p bd =>
    cases bd with
    | cons b rest => simp [TokenData.next] at h
    | nil =>
      cases dat with
      | cons a rest => simp [TokenData.next] at h
      | nil =>
        simp only [TokenData.next, Prod.mk.injEq] at h
        exact h.2.symm

theorem next_some_pos (d : TokenData) (c : Char) (d' : TokenData)
    (h : d.next = (some c, d')) : d'.pos = d.pos.add 1 := by
  cases d with
  | mk dat p bd =>
    cases bd with
    | cons b rest =>
      simp only [TokenData.next, Prod.mk.injEq, Option.some.injEq] at h
      rw [← h.2]
    | nil =>
      cases dat with
      | cons a rest =>
        simp only [TokenData.next, Prod.mk.injEq, Option.some.injEq] at h
        rw [← h.2]
      | nil => simp [TokenData.next] at h

theorem skipWhitespace_pos : ∀ (fuel : Nat) (d : TokenData),
    d.pos.ordLe (TokenData.skipWhitespace fuel d).pos := by
  intro fuel
  induction fuel with
  | zero => intro d; exact ordLe_refl _
  | succ n ih =>
    intro d
    simp only [TokenData.skipWhitespace]
    split
    · rename_i c d' heq
      split
      · refine ordLe_trans ?_ (ih d')
        rw [next_some_pos d c d' heq]
        exact ordLe_add _ _
      · dsimp only [TokenData.push]
        rw [next_some_pos d c d' heq, pos_add_one_sub_one]
        exact ordLe_refl _
    · rename_i d' heq
      rw [next_none d d' heq]
      exact ordLe_refl _

theorem advanceLine_pos (t : Tokens) : t.data.pos.ordLe ((t.advanceLine).data.pos) := by
  unfold Tokens.advanceLine
  split
  · rename_i c d1 heq
    have h1 : d1.pos = t.data.pos.add 1 := next_some_pos _ _ _ heq
    split
    · dsimp only
      refine ordLe_newline _ _ ?_
      rw [h1]
      exact ordLe_add _ _
    · split
      · split
        · rename_i c2 d2 heq2
          have h2 : d2.pos = d1.pos.add 1 := next_some_pos _ _ _ heq2
          split
          · dsimp only
            refine ordLe_newline _ _ ?_
            rw [h2, h1]
            exact ordLe_trans (ordLe_add _ _) (ordLe_add _ _)
          · dsimp only [TokenData.push]
            refine ordLe_newline _ _ ?_
            rw [h2, pos_add_one_sub_one, h1]
            exact ordLe_add _ _
        · rename_i d2 heq2
          rw [next_none d1 d2 heq2] at *
          dsimp only
          refine ordLe_newline _ _ ?_
          rw [h1]
          exact ordLe_add _ _
      · dsimp only [TokenData.push]
        rw [h1, pos_add_one_sub_one]
        exact ordLe_refl _
  · rename_i d1 heq
    rw [next_none _ _ heq]
    exact ordLe_refl _

theorem skipComment_pos : ∀ (fuel : Nat) (t : Tokens),
    t.data.pos.ordLe ((Tokens.skipComment fuel t).data.pos) := by
  intro fuel
  induction fuel with
  | zero => intro t; exact ordLe_refl _
  | succ n ih =>
    intro t
    simp only [Tokens.skipComment]
    split
    · rename_i c d1 heq
      have h1 : d1.pos = t.data.pos.add 1 := next_some_pos _ _ _ heq
      split
      · have h2 : ((d1.push c) : TokenData).pos = t.data.pos := by
          dsimp only [TokenData.push]
          rw [h1, pos_add_one_sub_one]
        have h3 := advanceLine_pos { t with data := d1.push c }
        rw [show ({ t with data := d1.push c } : Tokens).data.pos = t.data.pos from h2] at h3
        exact h3
      · refine ordLe_trans ?_ (ih { t with data := d1 })
        dsimp only
        rw [h1]
        exact ordLe_add _ _
    · rename_i d1 heq
      rw [next_none _ _ heq]
      exact ordLe_refl _

theorem readTextGo_pos : ∀ (fuel : Nat) (t : Tokens),
    t.data.pos.ordLe ((Tokens.readTextGo fuel t).data.pos) := by
  intro fuel
  induction fuel with
  | zero => intro t; exact ordLe_refl _
  | succ n ih =>
    intro t
    simp only [Tokens.readTextGo]
    split
    · exact ordLe_refl _
    · rename_i c heq
      have h1 : ((t.data.next).2).pos = t.data.pos.add 1 := next_pos_of_peek _ _ heq
      split
      · exact ordLe_refl _
      · split
        · split
          · rename_i c2 heq2
            split
            · dsimp only [TokenData.push]
              rw [h1, pos_add_one_sub_one]
              exact ordLe_refl _
            · refine ordLe_trans ?_ (ih _)
              dsimp only
              rw [h1]
              exact ordLe_add _ _
          · dsimp only
            rw [h1]
            exact ordLe_add _ _
        · refine ordLe_trans ?_ (ih _)
          dsimp only
          rw [h1]
          exact ordLe_add _ _

theorem nextTokenGo_mono :
    ∀ (fuel : Nat) (t : Tokens) (r : Option Token) (t' : Tokens),
      Tokens.nextTokenGo fuel t = some (r, t') →
      t.data.pos.ordLe t'.data.pos ∧
      (∀ tok, r = some tok →
        t.data.pos.ordLe tok.span.start ∧ tok.span.start.ordLe t'.data.pos) := by
  intro fuel
  induction fuel with
  | zero =>
    intro t r t' h
    simp [Tokens.nextTokenGo] at h
  | succ n ih =>
    intro t r t' h
    simp only [Tokens.nextTokenGo] at h
    split at h
    · -- end of input
      simp only [Option.some.injEq, Prod.mk.injEq] at h
      obtain ⟨h5, h6⟩ := h
      subst h5
      subst h6
      exact ⟨ordLe_refl _, fun tok htok => absurd htok (by simp)⟩
    · rename_i c heq
      split at h
      · -- whitespace skipped
        obtain ⟨hmono, htoks⟩ := ih _ _ _ h
        refine ⟨ordLe_trans (skipWhitespace_pos _ _) hmono, fun tok htok => ?_⟩
        obtain ⟨ha, hb⟩ := htoks tok htok
        exact ⟨ordLe_trans (skipWhitespace_pos _ _) ha, hb⟩
      · split at h
        · -- comment skipped
          obtain ⟨hmono, htoks⟩ := ih _ _ _ h
          refine ⟨ordLe_trans (skipComment_pos _ _) hmono, fun tok htok => ?_⟩
          obtain ⟨ha, hb⟩ := htoks tok htok
          exact ⟨ordLe_trans (skipComment_pos _ _) ha, hb⟩
        · split at h
          · -- line break consumed
            obtain ⟨hmono, htoks⟩ := ih _ _ _ h
            refine ⟨ordLe_trans (advanceLine_pos _) hmono, fun tok htok => ?_⟩
            obtain ⟨ha, hb⟩ := htoks tok htok
            exact ⟨ordLe_trans (advanceLine_pos _) ha, hb⟩
          · have hq : ((t.data.next).2).pos = t.data.pos.add 1 :=
              next_pos_of_peek _ _ heq
            split at h
            · -- LeftBracket
              simp only [Option.some.injEq, Prod.mk.injEq] at h
              obtain ⟨h5, h6⟩ := h
              subst h5
              subst h6
              refine ⟨?_, fun tok htok => ?_⟩
              · dsimp only
                rw [hq]
                exact ordLe_add _ _
              · injection htok with h7
                subst h7
                dsimp only [Token.new, Span.new]
                rw [hq]
                exact ⟨ordLe_add _ _, ordLe_refl _⟩
            · split at h
              · -- RightBracket
                simp only [Option.some.injEq, Prod.mk.injEq] at h
                obtain ⟨h5, h6⟩ := h
                subst h5
                subst h6
                refine ⟨?_, fun tok htok => ?_⟩
                · dsimp only
                  rw [hq]
                  exact ordLe_add _ _
                · injection htok with h7
                  subst h7
                  dsimp only [Token.new, Span.new]
                  rw [hq]
                  exact ⟨ordLe_add _ _, ordLe_refl _⟩
              · split at h
                · -- Equal
                  simp only [Option.some.injEq, Prod.mk.injEq] at h
                  obtain ⟨h5, h6⟩ := h
                  subst h5
                  subst h6
                  refine ⟨?_, fun tok htok => ?_⟩
                  · dsimp only
                    rw [hq]
                    exact ordLe_add _ _
                  · injection htok with h7
                    subst h7
                    dsimp only [Token.new, Span.new]
                    rw [hq]
                    exact ⟨ordLe_add _ _, ordLe_refl _⟩
                · split at h
                  · -- Semicolon
                    simp only [Option.some.injEq, Prod.mk.injEq] at h
                    obtain ⟨h5, h6⟩ := h
                    subst h5
                    subst h6
                    refine ⟨?_, fun tok htok => ?_⟩
                    · dsimp only
                      rw [hq]
                      exact ordLe_add _ _
                    · injection htok with h7
                      subst h7
                      dsimp only [Token.new, Span.new]
                      rw [hq]
                      exact ⟨ordLe_add _ _, ordLe_refl _⟩
                  · split at h
                    · -- Argument
                      split at h
                      · rename_i a d2 heq2
                        have h2 : d2.pos = ((t.data.next).2).pos.add 1 :=
                          next_some_pos _ _ _ heq2
                        simp only [Option.some.injEq, Prod.mk.injEq] at h
                        obtain ⟨h5, h6⟩ := h
                        subst h5
                        subst h6
                        have hstep : t.data.pos.ordLe d2.pos := by
                          rw [h2, hq]
                          exact ordLe_trans (ordLe_add _ _) (ordLe_add _ _)
                        refine ⟨hstep, fun tok htok => ?_⟩
                        injection htok with h7
                        subst h7
                        dsimp only [Token.new, Span.new]
                        exact ⟨hstep, ordLe_refl _⟩
                      · rename_i d2 heq2
                        have h2 : d2 = (t.data.next).2 := next_none _ _ heq2
                        simp only [Option.some.injEq, Prod.mk.injEq] at h
                        obtain ⟨h5, h6⟩ := h
                        subst h5
                        subst h6
                        have hstep : t.data.pos.ordLe d2.pos := by
                          rw [h2, hq]
                          exact ordLe_add _ _
                        refine ⟨hstep, fun tok htok => ?_⟩
                        injection htok with h7
                        subst h7
                        dsimp only [Token.new, Span.new]
                        exact ⟨hstep, ordLe_refl _⟩
                    · -- Text run
                      simp only [Option.some.injEq, Prod.mk.injEq] at h
                      obtain ⟨h5, h6⟩ := h
                      subst h5
                      subst h6
                      have hrt : t.data.pos.ordLe ((t.readText).data.pos) :=
                        readTextGo_pos (t.totalRem + 1) { t with buf := "" }
                      refine ⟨hrt, fun tok htok => ?_⟩
                      injection htok with h7
                      subst h7
                      dsimp only [Token.newWithSpan, Span.new]
                      exact ⟨ordLe_refl _, hrt⟩

/-- C9: the scan is monotone across emitted tokens.  For any lexer state, if
one call of `next_token` yields `tok1` and the following call yields `tok2`,
then `tok2`'s span start is not smaller than `tok1`'s span start under the
`Position` `Ord` instance (row first, then column). -/
theorem token_span_start_monotone :
    ∀ (t : Tokens) (fuel1 fuel2 : Nat) (tok1 tok2 : Token) (t1 t2 : Tokens),
      Tokens.nextTokenGo fuel1 t = some (some tok1, t1) →
      Tokens.nextTokenGo fuel2 t1 = some (some tok2, t2) →
      Position.ordCmp tok1.span.start tok2.span.start ≠ Ordering.gt := by
  intro t fuel1 fuel2 tok1 tok2 t1 t2 h1 h2
  obtain ⟨-, ha⟩ := nextTokenGo_mono fuel1 t _ t1 h1
  obtain ⟨-, ha2⟩ := ha tok1 rfl
  obtain ⟨hb1, -⟩ := (nextTokenGo_mono fuel2 t1 _ t2 h2).2 tok2 rfl
  exact ordLe_trans ha2 hb1

theorem token_span_start_monotone_witness :
    Position.ordCmp (⟨0, 0, 0⟩ : Position) ⟨0, 2, 2⟩ ≠ Ordering.gt :=
  token_span_start_monotone (Tokens.new "k=v") 4 4
    (Token.newWithSpan (TokenKind.Text "k") (Span.new ⟨0, 0, 0⟩ ⟨0, 1, 1⟩))
    (Token.new TokenKind.Equal ⟨0, 2, 2⟩)
    ⟨⟨['=', 'v'], ⟨0, 1, 1⟩, []⟩, State.ReadKey, "k"⟩
    ⟨⟨['v'], ⟨0, 2, 2⟩, []⟩, State.ReadValue, "k"⟩
    (by decide) (by decide)

/-- C10: pushback round-trip on the character cursor.  Whenever `next` returns
a character `c` with successor state `d'`, doing `push c` and then `next`
again returns `c` and restores `d'` exactly — in particular the position
(row, col, idx) equals its value after the first `next`.  `peek` is a pure
observation returning exactly the character `next` would produce. -/
theorem push_next_roundtrip :
    (∀ (d : TokenData) (c : Char) (d' : TokenData),
        d.next = (some c, d') → (d'.push c).next = (some c, d')) ∧
    (∀ d : TokenData, d.peek = (d.next).1) := by
  constructor
  · intro d c d' h
    cases d with
    | mk dat p bd =>
      cases bd with
      | cons b rest =>
        simp only [TokenData.next, Prod.mk.injEq, Option.some.injEq] at h
        obtain ⟨rfl, rfl⟩ := h
        simp [TokenData.push, TokenData.next, pos_add_one_sub_one]
      | nil =>
        cases dat with
        | cons a rest =>
          simp only [TokenData.next, Prod.mk.injEq, Option.some.injEq] at h
          obtain ⟨rfl, rfl⟩ := h
          simp [TokenData.push, TokenData.next, pos_add_one_sub_one]
        | nil => simp [TokenData.next] at h
  · intro d
    cases d with
    | mk dat p bd =>
      cases bd with
      | cons b rest => simp [TokenData.peek, TokenData.next]
      | nil =>
        cases dat with
        | cons a rest => simp [TokenData.peek, TokenData.next]
        | nil => simp [TokenData.peek, TokenData.next]

theorem push_next_roundtrip_witness :
    TokenData.next (TokenData.push ⟨['b'], ⟨0, 1, 1⟩, []⟩ 'a') =
      (some 'a', ⟨['b'], ⟨0, 1, 1⟩, []⟩) :=
  push_next_roundtrip.1 ⟨['a', 'b'], ⟨0, 0, 0⟩, []⟩ 'a' ⟨['b'], ⟨0, 1, 1⟩, []⟩ (by decide)

/-- C2: the lexer does produce the semicolon-separated value run the claim
describes (evaluated at the failing input `key3=list;of;stuff!`), but the tree
builder cannot classify any value as a `List` variant: the repository's
`ValueKind` enum has exactly the constructors `Simple` and `Exec`. -/
theorem valueKind_has_no_list_variant :
    ((Tokens.new "key3=list;of;stuff!").lexAll 12).map Token.kind =
      [TokenKind.Text "key3", TokenKind.Equal, TokenKind.Text "list",
       TokenKind.Semicolon, TokenKind.Text "of", TokenKind.Semicolon,
       TokenKind.Text "stuff!"] ∧
    ∀ v : ValueKind, (∃ s, v = ValueKind.Simple s) ∨ (∃ ps, v = ValueKind.Exec ps) := by
  constructor
  · rfl
  · intro v
    cases v with
    | Simple s => exact Or.inl ⟨s, rfl⟩
    | Exec ps => exact Or.inr ⟨ps, rfl⟩

/-- C3 counterexample: `Span::new` performs no validity check, so constructing
an inverted span through it is not rejected — it returns the inverted span. -/
theorem span_new_accepts_inverted :
    Span.new ⟨1, 0, 9⟩ ⟨0, 0, 0⟩ = { start := ⟨1, 0, 9⟩, «end» := ⟨0, 0, 0⟩ } ∧
    ¬ (Span.new ⟨1, 0, 9⟩ ⟨0, 0, 0⟩).wellOrdered := by
  exact ⟨rfl, by decide⟩

/-- C3 (amended): `start <= end` is preserved by every sequence of `+n`,
`-n` and `finish` operations that does not panic (given it held initially);
`finish` and `-n` panic exactly when the result would be inverted; but
`Span::new` performs no check and constructs the span exactly as given. -/
theorem span_ops_preserve_order :
    (∀ (s : Span) (ops : List SpanOp) (s' : Span),
        s.wellOrdered → s.applyOps ops = some s' → s'.wellOrdered) ∧
    (∀ (s : Span) (e : Position),
        s.finish e = none ↔ s.start.lexCmp e = Ordering.gt) ∧
    (∀ (s : Span) (n : Nat),
        s.sub n = none ↔ s.start.lexCmp (s.«end».sub n) = Ordering.gt) ∧
    (∀ (p q : Position), Span.new p q = { start := p, «end» := q }) := by
  refine ⟨fun s ops s' h happ => wellOrdered_applyOps ops s s' h happ, ?_, ?_, ?_⟩
  · intro s e
    unfold Span.finish
    split
    · rename_i hc
      simp [hc]
    · rename_i hc
      simp [hc]
  · intro s n
    unfold Span.sub
    split
    · rename_i hc
      simp [hc]
    · rename_i hc
      simp [hc]
  · intro p q
    rfl

theorem span_ops_preserve_order_witness :
    Span.applyOps (Span.new ⟨0, 0, 0⟩ ⟨0, 0, 0⟩) [SpanOp.add 2, SpanOp.finish ⟨0, 3, 3⟩] =
      some { start := ⟨0, 0, 0⟩, «end» := ⟨0, 3, 3⟩ } ∧
    Span.wellOrdered { start := ⟨0, 0, 0⟩, «end» := ⟨0, 3, 3⟩ } :=
  ⟨by decide,
   span_ops_preserve_order.1 (Span.new ⟨0, 0, 0⟩ ⟨0, 0, 0⟩)
     [SpanOp.add 2, SpanOp.finish ⟨0, 3, 3⟩] _ (by decide) (by decide)⟩

/-- C7: a token sequence whose first token is not a `LeftBracket` makes the
tree builder's `parse` return the recoverable `ExpectedHeader` error carrying
the offending token's span; `parse` is a total function, so no panic is
possible.  (The tree builder is modelled from the spec; see `Parser.parse`.) -/
theorem parse_requires_leading_header :
    ∀ (t : Token) (rest : List Token), t.kind ≠ TokenKind.LeftBracket →
      Parser.parse (t :: rest) = Except.error (ParseError.ExpectedHeader t.span) := by
  intro t rest h
  simp [Parser.parse, parseGo, h]

/-- C1: the token sequence is not always finite.  On the input `"]"` (a
structural character that is not a delimiter of the initial `ReadKey` state)
`next_token` reaches the text-run arm, `read_text` stops immediately on the
`']'` without consuming it, and the lexer returns an empty `Text` token with
its entire state unchanged — so every call, forever, yields that same token
and `None` is never reached. -/
theorem lexer_loops_on_stray_right_bracket :
    ∀ n : Nat, Tokens.lexNth n (Tokens.new "]") =
      some (Token.newWithSpan (TokenKind.Text "") (Span.new Position.new Position.new)) := by
  intro n
  induction n with
  | zero => rfl
  | succ n ih =>
    show Tokens.lexNth n ((Tokens.new "]").runNext).2 = _
    have h2 : ((Tokens.new "]").runNext).2 = Tokens.new "]" := rfl
    rw [h2]
    exact ih

/-- C5: in state `ReadKey` with `'='` as the next character, the lexer emits
exactly one `Equal` token and moves to `ReadExec` when the text buffer (the
most recently scanned text run) equals `"Exec"`, else to `ReadValue`. -/
theorem equal_token_transition :
    ∀ (fuel : Nat) (t : Tokens),
      t.state = State.ReadKey → t.data.peek = some '=' →
      Tokens.nextTokenGo (fuel + 1) t =
        some (some (Token.new TokenKind.Equal (t.data.pos.add 1)),
          { t with
            state := if t.buf = "Exec" then State.ReadExec else State.ReadValue,
            data := (t.data.next).2 }) := by
  intro fuel t hs hp
  have hpos : ((t.data.next).2).pos = t.data.pos.add 1 := next_pos_of_peek t.data '=' hp
  simp only [Tokens.nextTokenGo, hp, hs]
  rw [if_neg (by decide), if_neg (by decide), if_neg (by decide), if_neg (by decide),
      if_neg (by decide), if_pos (by decide)]
  rw [hpos]

theorem equal_token_transition_witness :
    Tokens.nextTokenGo 1 ⟨⟨['='], ⟨0, 4, 4⟩, []⟩, State.ReadKey, "Exec"⟩ =
      some (some (Token.new TokenKind.Equal ⟨0, 5, 5⟩),
        ⟨⟨[], ⟨0, 5, 5⟩, []⟩, State.ReadExec, "Exec"⟩) ∧
    Tokens.nextTokenGo 1 ⟨⟨['='], ⟨0, 3, 3⟩, []⟩, State.ReadKey, "key"⟩ =
      some (some (Token.new TokenKind.Equal ⟨0, 4, 4⟩),
        ⟨⟨[], ⟨0, 4, 4⟩, []⟩, State.ReadValue, "key"⟩) :=
  ⟨equal_token_transition 0 ⟨⟨['='], ⟨0, 4, 4⟩, []⟩, State.ReadKey, "Exec"⟩ rfl rfl,
   equal_token_transition 0 ⟨⟨['='], ⟨0, 3, 3⟩, []⟩, State.ReadKey, "key"⟩ rfl rfl⟩

theorem advanceLine_state (t : Tokens) (c : Char) (hp : t.data.peek = some c)
    (hc : c = '\n' ∨ c = '\r') : (t.advanceLine).state = State.ReadKey := by
  have h1 := next_fst_of_peek t.data c hp
  unfold Tokens.advanceLine
  rcases hn : t.data.next with ⟨oc, d1⟩
  rw [hn] at h1
  simp at h1
  subst h1
  rcases hc with rfl | rfl
  · simp
  · rcases hm : d1.next with ⟨oc2, d2⟩
    cases oc2 with
    | none => simp [hm]
    | some c2 =>
      by_cases h2 : c2 = '\n' <;> simp [hm, h2]

/-- C6: whenever the next character is a line break (`\n`, `\r\n` or `\r`),
the lexer consumes it without emitting a token (`next_token` simply continues
on the advanced state) and the state is reset to `ReadKey`, whatever state it
was in. -/
theorem line_break_resets_state :
    ∀ (t : Tokens) (c : Char), t.data.peek = some c → (c = '\n' ∨ c = '\r') →
      (t.advanceLine).state = State.ReadKey ∧
      ∀ fuel : Nat,
        Tokens.nextTokenGo (fuel + 1) t = Tokens.nextTokenGo fuel t.advanceLine := by
  intro t c hp hc
  refine ⟨advanceLine_state t c hp hc, ?_⟩
  intro fuel
  rcases hc with rfl | rfl <;>
    · simp only [Tokens.nextTokenGo, hp]
      rw [if_neg (fun h => absurd h.1 (by decide)), if_neg (by decide), if_pos (by decide)]

theorem line_break_resets_state_witness :
    (Tokens.advanceLine ⟨⟨['\n', 'a'], ⟨0, 5, 5⟩, []⟩, State.ReadExec, "b"⟩).state =
        State.ReadKey ∧
    Tokens.nextTokenGo 3 ⟨⟨['\r', 'x'], ⟨0, 2, 2⟩, []⟩, State.ReadValue, ""⟩ =
      Tokens.nextTokenGo 2
        (Tokens.advanceLine ⟨⟨['\r', 'x'], ⟨0, 2, 2⟩, []⟩, State.ReadValue, ""⟩) :=
  ⟨(line_break_resets_state ⟨⟨['\n', 'a'], ⟨0, 5, 5⟩, []⟩, State.ReadExec, "b"⟩ '\n'
      rfl (Or.inl rfl)).1,
   (line_break_resets_state ⟨⟨['\r', 'x'], ⟨0, 2, 2⟩, []⟩, State.ReadValue, ""⟩ '\r'
      rfl (Or.inr rfl)).2 2⟩

/-- C4 counterexample: lexing `Exec=%%` emits an `Argument '%'` token even
though the introducing `'%'` is followed by `'%'`, which is not a letter; the
claimed literal pass-through of `%%` fails when the `%` is the first character
after the `Equal` token. -/
theorem exec_percent_after_equal_emits_argument :
    ((Tokens.new "Exec=%%").lexAll 8).map Token.kind =
      [TokenKind.Text "Exec", TokenKind.Equal, TokenKind.Argument '%'] ∧
    '%'.isAlpha = false :=
  ⟨rfl, rfl⟩

/-- C4 (amended): the alphabetic check applies only inside a text run.  When
`next_token` itself peeks a `'%'` in state `ReadExec` (for instance right
after the `Equal` token or right after a previous `Argument` token) it emits
`Argument c` for whatever character `c` follows, `NUL` at end of input,
without checking that `c` is a letter (first conjunct).  Within a text run,
`read_text` consumes a `'%'` followed by a non-letter literally into the
buffer and continues (second conjunct), and stops before the `'%'` — pushing
it back — exactly when the following character is alphabetic (third
conjunct). -/
theorem exec_percent_handling :
    (∀ (fuel : Nat) (t : Tokens), t.state = State.ReadExec → t.data.peek = some '%' →
      Tokens.nextTokenGo (fuel + 1) t =
        some (some (Token.new
            (TokenKind.Argument ((((t.data.next).2).next).1.getD (Char.ofNat 0)))
            ((((t.data.next).2).next).2).pos),
          { t with data := (((t.data.next).2).next).2 })) ∧
    (∀ (fuel : Nat) (t : Tokens) (c : Char), t.state = State.ReadExec →
      t.data.peek = some '%' → ((t.data.next).2).peek = some c → c.isAlpha = false →
      Tokens.readTextGo (fuel + 1) t =
        Tokens.readTextGo fuel { t with data := (t.data.next).2, buf := t.buf.push '%' }) ∧
    (∀ (fuel : Nat) (t : Tokens) (c : Char), t.state = State.ReadExec →
      t.data.peek = some '%' → ((t.data.next).2).peek = some c → c.isAlpha = true →
      Tokens.readTextGo (fuel + 1) t = { t with data := ((t.data.next).2).push '%' }) := by
  refine ⟨?_, ?_, ?_⟩
  · intro fuel t hs hp
    simp only [Tokens.nextTokenGo, hp, hs]
    rw [if_neg (by decide), if_neg (by decide), if_neg (by decide), if_neg (by decide),
        if_neg (by decide), if_neg (by decide), if_neg (by decide), if_pos (by decide)]
    rcases hm : ((t.data.next).2).next with ⟨oa, d2⟩
    cases oa with
    | none => simp
    | some a => simp
  · intro fuel t c hs hp hpc hal
    simp only [Tokens.readTextGo, hp, hs]
    rw [if_neg (by decide), if_pos (by decide)]
    rw [hpc]
    simp [hal]
  · intro fuel t c hs hp hpc hal
    simp only [Tokens.readTextGo, hp, hs]
    rw [if_neg (by decide), if_pos (by decide)]
    rw [hpc]
    simp [hal]

theorem exec_percent_handling_witness :
    Tokens.nextTokenGo 1 ⟨⟨['%', '1'], ⟨0, 0, 0⟩, []⟩, State.ReadExec, ""⟩ =
      some (some (Token.new (TokenKind.Argument '1') ⟨0, 2, 2⟩),
        ⟨⟨[], ⟨0, 2, 2⟩, []⟩, State.ReadExec, ""⟩) ∧
    Tokens.readTextGo 2 ⟨⟨['%', '%', 'x'], ⟨0, 0, 0⟩, []⟩, State.ReadExec, "ab"⟩ =
      Tokens.readTextGo 1 ⟨⟨['%', 'x'], ⟨0, 1, 1⟩, []⟩, State.ReadExec, "ab%"⟩ ∧
    Tokens.readTextGo 1 ⟨⟨['%', 'f'], ⟨0, 0, 0⟩, []⟩, State.ReadExec, ""⟩ =
      ⟨⟨['f'], ⟨0, 0, 0⟩, ['%']⟩, State.ReadExec, ""⟩ :=
  ⟨exec_percent_handling.1 0 ⟨⟨['%', '1'], ⟨0, 0, 0⟩, []⟩, State.ReadExec, ""⟩ rfl rfl,
   exec_percent_handling.2.1 1 ⟨⟨['%', '%', 'x'], ⟨0, 0, 0⟩, []⟩, State.ReadExec, "ab"⟩ '%'
     rfl rfl rfl rfl,
   exec_percent_handling.2.2 0 ⟨⟨['%', 'f'], ⟨0, 0, 0⟩, []⟩, State.ReadExec, ""⟩ 'f'
     rfl rfl rfl rfl⟩

/-- C8 counterexample: the `LeftBracket` token lexed from the input `"["`
(whose `'['` sits at byte offset 0) carries span start byte offset 1 and end
byte offset 2, not the claimed `[0, 1)`: single-character tokens are
constructed from the position *after* the character is consumed. -/
theorem left_bracket_span_shifted :
    Tokens.lexNth 0 (Tokens.new "[") =
      some { kind := TokenKind.LeftBracket, span := Span.new ⟨0, 1, 1⟩ ⟨0, 2, 2⟩ } ∧
    Tokens.lexNth 0 (Tokens.new "[") ≠
      some { kind := TokenKind.LeftBracket, span := Span.new ⟨0, 0, 0⟩ ⟨0, 1, 1⟩ } :=
  ⟨rfl, by decide⟩

/-- C8 (amended): token span layout.  A single-character structural token
(`LeftBracket`, `RightBracket`, `Equal`, `Semicolon`) whose character sits at
byte offset `k` (the scan position before the arm fires) is emitted with span
`[k+1, k+2)` — one past the character — because the token is built from the
position after consumption (first conjunct); an `Argument` token whose `'%'`
sits at byte offset `k` and is followed by a character is emitted with span
`[k+2, k+3)`, past its two-character lexeme (second conjunct); and a `Text`
token's span runs from the scan position at the start of the run to the
position just past the run (third conjunct). -/
theorem token_span_layout :
    (∀ (fuel : Nat) (t : Tokens) (c : Char), t.data.peek = some c →
      ((c = '[' ∧ t.state = State.ReadKey) ∨ (c = ']' ∧ t.state = State.ReadHeader) ∨
        (c = '=' ∧ t.state = State.ReadKey) ∨ (c = ';' ∧ t.state = State.ReadValue)) →
      ∃ (tok : Token) (t' : Tokens),
        Tokens.nextTokenGo (fuel + 1) t = some (some tok, t') ∧
        tok.span.start = t.data.pos.add 1 ∧ tok.span.«end» = t.data.pos.add 2) ∧
    (∀ (fuel : Nat) (t : Tokens) (a : Char), t.state = State.ReadExec →
      t.data.peek = some '%' → ((t.data.next).2).peek = some a →
      ∃ (tok : Token) (t' : Tokens),
        Tokens.nextTokenGo (fuel + 1) t = some (some tok, t') ∧
        tok.kind = TokenKind.Argument a ∧
        tok.span.start = t.data.pos.add 2 ∧ tok.span.«end» = t.data.pos.add 3) ∧
    (∀ (fuel : Nat) (t : Tokens) (c : Char), t.data.peek = some c →
      ¬((c = ' ' ∨ c = '\t') ∧ t.state ≠ State.ReadExec) → ¬(c = '#') →
      ¬(c = '\n' ∨ c = '\r') →
      ¬(c = '[' ∧ t.state = State.ReadKey) → ¬(c = ']' ∧ t.state = State.ReadHeader) →
      ¬(c = '=' ∧ t.state = State.ReadKey) → ¬(c = ';' ∧ t.state = State.ReadValue) →
      ¬(c = '%' ∧ t.state = State.ReadExec) →
      Tokens.nextTokenGo (fuel + 1) t =
        some (some (Token.newWithSpan (TokenKind.Text (t.readText).buf)
            (Span.new t.data.pos (t.readText).data.pos)), t.readText)) := by
  refine ⟨?_, ?_, ?_⟩
  · intro fuel t c hp harm
    have hpos : ((t.data.next).2).pos = t.data.pos.add 1 := next_pos_of_peek t.data c hp
    rcases harm with ⟨rfl, hs⟩ | ⟨rfl, hs⟩ | ⟨rfl, hs⟩ | ⟨rfl, hs⟩
    · simp only [Tokens.nextTokenGo, hp, hs]
      rw [if_neg (by decide), if_neg (by decide), if_neg (by decide)]
      refine ⟨Token.new TokenKind.LeftBracket ((t.data.next).2).pos,
        { t with state := State.ReadHeader, data := (t.data.next).2 }, ?_, ?_, ?_⟩
      · rfl
      · simp [Token.new, Span.new, hpos]
      · simp [Token.new, Span.new, hpos, pos_add_add]
    · simp only [Tokens.nextTokenGo, hp, hs]
      rw [if_neg (by decide), if_neg (by decide), if_neg (by decide)]
      refine ⟨Token.new TokenKind.RightBracket ((t.data.next).2).pos,
        { t with state := State.ReadKey, data := (t.data.next).2 }, ?_, ?_, ?_⟩
      · rfl
      · simp [Token.new, Span.new, hpos]
      · simp [Token.new, Span.new, hpos, pos_add_add]
    · simp only [Tokens.nextTokenGo, hp, hs]
      rw [if_neg (by decide), if_neg (by decide), if_neg (by decide)]
      refine ⟨Token.new TokenKind.Equal ((t.data.next).2).pos,
        { t with state := if t.buf = "Exec" then State.ReadExec else State.ReadValue,
                 data := (t.data.next).2 }, ?_, ?_, ?_⟩
      · rfl
      · simp [Token.new, Span.new, hpos]
      · simp [Token.new, Span.new, hpos, pos_add_add]
    · simp only [Tokens.nextTokenGo, hp, hs]
      rw [if_neg (by decide), if_neg (by decide), if_neg (by decide)]
      refine ⟨Token.new TokenKind.Semicolon ((t.data.next).2).pos,
        { t with state := State.ReadValue, data := (t.data.next).2 }, ?_, ?_, ?_⟩
      · rfl
      · simp [Token.new, Span.new, hpos]
      · simp [Token.new, Span.new, hpos, pos_add_add]
  · intro fuel t a hs hp hq
    have h1 : ((t.data.next).2).pos = t.data.pos.add 1 := next_pos_of_peek _ _ hp
    have h2 := next_fst_of_peek _ _ hq
    have h3 := next_pos_of_peek _ _ hq
    simp only [Tokens.nextTokenGo, hp, hs]
    rw [if_neg (by decide), if_neg (by decide), if_neg (by decide), if_neg (by decide),
        if_neg (by decide), if_neg (by decide), if_neg (by decide), if_pos (by decide)]
    rcases hm : ((t.data.next).2).next with ⟨oa, d2⟩
    rw [hm] at h2 h3
    dsimp only at h2 h3
    subst h2
    have h4 : d2.pos = t.data.pos.add 2 := by
      rw [h3, h1]
      exact pos_add_add t.data.pos 1 1
    refine ⟨Token.new (TokenKind.Argument a) d2.pos,
      { t with state := State.ReadExec, data := d2 }, rfl, rfl, ?_, ?_⟩
    · show d2.pos = t.data.pos.add 2
      exact h4
    · show d2.pos.add 1 = t.data.pos.add 3
      rw [h4]
      exact pos_add_add t.data.pos 2 1
  · intro fuel t c hp n1 n2 n3 n4 n5 n6 n7 n8
    simp only [Tokens.nextTokenGo, hp]
    rw [if_neg n1, if_neg n2, if_neg n3, if_neg n4, if_neg n5, if_neg n6, if_neg n7,
        if_neg n8]

theorem token_span_layout_witness :
    (∃ (tok : Token) (t' : Tokens),
      Tokens.nextTokenGo 1 (Tokens.new "[") = some (some tok, t') ∧
      tok.span.start = (Tokens.new "[").data.pos.add 1 ∧
      tok.span.«end» = (Tokens.new "[").data.pos.add 2) ∧
    (∃ (tok : Token) (t' : Tokens),
      Tokens.nextTokenGo 1 (⟨⟨['%', 'f'], ⟨0, 6, 6⟩, []⟩, State.ReadExec, "x"⟩ : Tokens) =
        some (some tok, t') ∧
      tok.kind = TokenKind.Argument 'f' ∧
      tok.span.start = (⟨0, 6, 6⟩ : Position).add 2 ∧
      tok.span.«end» = (⟨0, 6, 6⟩ : Position).add 3) ∧
    Tokens.nextTokenGo 1 (Tokens.new "k") =
      some (some (Token.newWithSpan (TokenKind.Text ((Tokens.new "k").readText).buf)
          (Span.new (Tokens.new "k").data.pos ((Tokens.new "k").readText).data.pos)),
        (Tokens.new "k").readText) :=
  ⟨token_span_layout.1 0 (Tokens.new "[") '[' rfl (Or.inl ⟨rfl, rfl⟩),
   token_span_layout.2.1 0 ⟨⟨['%', 'f'], ⟨0, 6, 6⟩, []⟩, State.ReadExec, "x"⟩ 'f'
     rfl rfl rfl,
   token_span_layout.2.2 0 (Tokens.new "k") 'k' rfl (by decide) (by decide) (by decide)
     (by decide) (by decide) (by decide) (by decide) (by decide)⟩

theorem parse_requires_leading_header_witness :
    Parser.parse ((Tokens.new "key=value").lexAll 12) =
      Except.error (ParseError.ExpectedHeader (Span.new ⟨0, 0, 0⟩ ⟨0, 3, 3⟩)) := by
  have h : (Tokens.new "key=value").lexAll 12 =
      { kind := TokenKind.Text "key", span := Span.new ⟨0, 0, 0⟩ ⟨0, 3, 3⟩ } ::
        [{ kind := TokenKind.Equal, span := Span.new ⟨0, 4, 4⟩ ⟨0, 5, 5⟩ },
         { kind := TokenKind.Text "value", span := Span.new ⟨0, 4, 4⟩ ⟨0, 9, 9⟩ }] := by
    rfl
  rw [h]
  exact parse_requires_leading_header _ _ (by decide)

end Lsapp
